import Mathlib

/-
Verification of the correction-pass layer of pybind11-stubgen
(pybind11_stubgen/parser/mixins/fix.py), over a shallow embedding.

Conventions of the embedding:
* `QualifiedName` (structs.QualifiedName, a tuple of identifier segments)
  is `List String`; `name.parent` is `name.take (name.length - 1)`;
  the resolver loop that repeatedly takes `.parent` is phrased as a
  countdown over the length of the prefix being examined.
* The host environment (importlib.import_module / getattr / hasattr /
  the builtins namespace) is abstracted as the capability record `Host`,
  with `Obj` the type of live Python objects.  `import_module` raising
  `ModuleNotFoundError` is `Option.none`; `hasattr o s` is
  `(getattr o s).isSome`.
* Python structural equality (`==` on the structs dataclasses) on the
  annotation type is the Bool-valued `annBeq` / `annOptBeq`.
* Fallible code paths (the `assert` in FixTypingTypeNames) return
  `Option`.
* Shortened names: `Ann` stands for the union
  ResolvedType | Value | InvalidExpression of the structs module, its
  field `annot` for the annotation field of those dataclasses, and
  `Field.attr` for the Field dataclass's attribute field.
* The character classes of Python's re module are Unicode-aware; the
  matcher for FixValueReprRandomAddress therefore takes the membership
  tables of `\w` and `\s` as host parameters (like the import machinery
  in `Host`), and `isWordChar` / `isSpaceChar` are their ASCII
  restrictions, used to compute concrete ASCII examples, on which
  Python's tables agree with the ASCII ones.
-/

namespace PybindStubgen

/-- A segment of a dotted path (structs.Identifier, a str subclass). -/
abbrev Identifier := String

/-- structs.QualifiedName: ordered, possibly empty sequence of segments. -/
abbrev QualifiedName := List Identifier

/-- structs.Import: whole-module import (`name = none`) or
name-from-module import; identity is the (name, origin) pair. -/
structure Import where
  name : Option Identifier
  origin : QualifiedName
deriving DecidableEq, Repr

/-- The annotation expression type: structs.ResolvedType (qualified name
plus optional parameter list) | structs.Value (rendered repr text) |
structs.InvalidExpression (unparsed text). -/
inductive Ann where
  | resolvedType (name : QualifiedName) (parameters : Option (List Ann))
  | value (repr : String)
  | invalidExpression (text : String)
deriving Repr

/-- Structural equality on `Ann`, the embedding of Python dataclass
equality for ResolvedType / Value / InvalidExpression. -/
def annBeq (a b : Ann) : Bool :=
  match a, b with
  | .resolvedType n1 p1, .resolvedType n2 p2 =>
    n1 == n2 &&
      (match p1, p2 with
       | Option.none, Option.none => true
       | Option.some l1, Option.some l2 => listBeq l1 l2
       | _, _ => false)
  | .value r1, .value r2 => r1 == r2
  | .invalidExpression t1, .invalidExpression t2 => t1 == t2
  | _, _ => false
where
  listBeq : List Ann → List Ann → Bool
  | [], [] => true
  | x :: xs, y :: ys => annBeq x y && listBeq xs ys
  | _, _ => false

/-- Structural equality on optional annotations (Python `==` where either
side may be `None`). -/
def annOptBeq : Option Ann → Option Ann → Bool
  | Option.none, Option.none => true
  | Option.some a, Option.some b => annBeq a b
  | _, _ => false

/-- structs.Attribute: a named module/class attribute.  `value` keeps the
list of names handed to `handle_value` when the attribute is a
synthesized export list (the rendering of values is out of scope). -/
structure Attribute where
  name : Identifier
  value : Option (List String)
  annot : Option Ann
deriving Repr

/-- structs.Arg: one function argument (position is list position). -/
structure Arg where
  name : Identifier
  annot : Option Ann
deriving Repr

/-- structs.Function: argument list plus return annotation. -/
structure Func where
  name : Identifier
  args : List Arg
  returns : Option Ann
deriving Repr

/-- structs.Property: optional getter/setter accessor functions. -/
structure Property where
  name : Identifier
  getter : Option Func
  setter : Option Func
deriving Repr

/-- structs.Field: an attribute plus a modifier (`attr` is the Field
dataclass's attribute field). -/
structure Field where
  attr : Attribute
  modifier : Option Identifier
deriving Repr

/-- The union returned by handle_class_member:
Docstring | Alias | Class | list[Method] | Field | Property. -/
inductive ClassMember where
  | docstring (text : String)
  | aliasM (name : Identifier) (origin : QualifiedName)
  | classM (name : Identifier)
  | methods (fns : List Func)
  | field (f : Field)
  | property (p : Property)
deriving Repr

/-- structs.Module as needed by FixMissing__all__Attribute: the named
member collections an export list is synthesized from. -/
structure Module where
  classes : List Identifier
  attributes : List Attribute
  functions : List Identifier
  aliases : List Identifier
  imports : List Import
  subModules : List Identifier
deriving Repr

/-- The host-environment capability record (spec section 6): module
lookup (importlib.import_module, `none` = ModuleNotFoundError), attribute
lookup on live objects (getattr, `none` = missing, so hasattr is
`isSome`), and the builtins-namespace membership test.  `Obj` is the type
of live Python objects. -/
structure Host (Obj : Type) where
  builtinHas : Identifier → Bool
  importMod : QualifiedName → Option Obj
  getattr : Obj → Identifier → Option Obj

/-- hasattr(o, s). -/
def hasattr {Obj : Type} (h : Host Obj) (o : Obj) (s : Identifier) : Bool :=
  (h.getattr o s).isSome

/-- FixMissingImports._is_module: does the dotted name import as a module. -/
def isModule {Obj : Type} (h : Host Obj) (name : QualifiedName) : Bool :=
  (h.importMod name).isSome

/-- The getattr walk inside FixMissingImports._is_accessible: resolve each
remaining segment attribute-by-attribute from a live object. -/
def walkAttrs {Obj : Type} (h : Host Obj) : Obj → List Identifier → Bool
  | _, [] => true
  | o, p :: ps =>
    match h.getattr o p with
    | some o2 => walkAttrs h o2 ps
    | none => false

/-- FixMissingImports._is_accessible: import `fromMod`, then walk
`name[len(fromMod):]` attribute-by-attribute. -/
def isAccessible {Obj : Type} (h : Host Obj) (name fromMod : QualifiedName) : Bool :=
  match h.importMod fromMod with
  | none => false
  | some m => walkAttrs h m (name.drop fromMod.length)

/-- The loop of FixMissingImports._get_parent_module, phrased over the
length `k` of the prefix under examination (`name.take k` is the current
value of the Python variable `parent`; taking `.parent` decrements `k`).
On the first prefix that imports as a module the accessibility check is
decisive: failure returns `none` without trying shorter prefixes. -/
def gpmGo {Obj : Type} (h : Host Obj) (name : QualifiedName) : Nat → Option QualifiedName
  | 0 => Option.none
  | k + 1 =>
    let p := name.take (k + 1)
    if isModule h p then
      if isAccessible h name p then some p else none
    else gpmGo h name k

/-- FixMissingImports._get_parent_module: starts from
`parent = name.parent`, the longest proper prefix. -/
def getParentModule {Obj : Type} (h : Host Obj) (name : QualifiedName) : Option QualifiedName :=
  gpmGo h name (name.length - 1)

/-- Mutable state of the FixMissingImports pass: the per-scope
accumulator of extra imports, the current module / current class context, and the
diagnostics reported through report_error (each NameResolutionError keyed
by the offending qualified name). -/
structure St (Obj : Type) where
  extraImports : Finset Import
  currentModule : Option Obj
  currentClass : Option Obj
  errors : List QualifiedName

/-- The visibility test at the top of FixMissingImports._add_import: a
non-empty name needs no import when its head is found on the builtins
namespace, the current class, or the current module. -/
def visible {Obj : Type} (h : Host Obj) (cm cc : Option Obj) (name : QualifiedName) : Bool :=
  match name with
  | [] => false
  | n0 :: _ =>
    h.builtinHas n0 ||
    (match cc with | some c => hasattr h c n0 | none => false) ||
    (match cm with | some m => hasattr h m n0 | none => false)

/-- FixMissingImports._add_import: skip visible names; otherwise look for
the parent module, either registering a whole-module import of it or
reporting one NameResolutionError naming the qualified name. -/
def addImport {Obj : Type} (h : Host Obj) (st : St Obj) (name : QualifiedName) : St Obj :=
  if visible h st.currentModule st.currentClass name then st
  else
    match getParentModule h name with
    | none => { st with errors := st.errors ++ [name] }
    | some p => { st with extraImports := insert (Import.mk none p) st.extraImports }

/-- FixMissingImports.handle_attribute: the attribute returned by the
inner pass is passed through unchanged; a resolved-type annotation only
triggers `_add_import` on its name. -/
def handleAttribute {Obj : Type} (h : Host Obj) (st : St Obj) (result : Option Attribute) :
    Option Attribute × St Obj :=
  match result with
  | none => (none, st)
  | some a =>
    (some a,
     match a.annot with
     | some (Ann.resolvedType n _) => addImport h st n
     | _ => st)

/-- Input declaration tree for the resolver traversal: a module's live
object, the import set its declaration already carries, the resolved-type
names its own (non-nested) declarations mention, and its sub-modules.
Modelled from the spec: the recursive traversal driver (module →
members → sub-modules, spec section 2) lives outside src; the per-module
scope discipline below is transcribed from
FixMissingImports.handle_module. -/
inductive ModTree (Obj : Type) where
  | mk (live : Obj) (base : Finset Import) (attrAnnots : List QualifiedName)
      (subs : List (ModTree Obj))

/-- Output of the resolver traversal for one module: its final import set
and the outputs of its sub-modules. -/
inductive ModuleOut where
  | mk (imports : Finset Import) (subs : List ModuleOut)

/-- Final import set of a processed module. -/
def ModuleOut.imports : ModuleOut → Finset Import
  | .mk i _ => i

/-- FixMissingImports.handle_module around the (spec-modelled) driver:
save the enclosing accumulator and module context, reset the accumulator
and enter the module, let the inner pass run over the module's own
declarations and recurse into sub-modules, merge the accumulator into
this module's import set once, and restore the enclosing context. -/
def processModule {Obj : Type} (h : Host Obj) (st : St Obj) : ModTree Obj → ModuleOut × St Obj
  | .mk live base attrs subs =>
    let st1 : St Obj := { st with extraImports := ∅, currentModule := some live }
    let st2 := attrs.foldl (addImport h) st1
    let r := processSubs subs st2
    (ModuleOut.mk (base ∪ r.2.extraImports) r.1,
     { r.2 with extraImports := st.extraImports, currentModule := st.currentModule })
where
  processSubs : List (ModTree Obj) → St Obj → List ModuleOut × St Obj
  | [], st => ([], st)
  | m :: ms, st =>
    let r1 := processModule h st m
    let r2 := processSubs ms r1.2
    (r1.1 :: r2.1, r2.2)

/-- The import contribution of a single `_add_import` call, as a pure
function of the context: empty for visible or unresolvable names, the
whole-module import of the chosen parent otherwise. -/
def importDelta {Obj : Type} (h : Host Obj) (cm cc : Option Obj) (name : QualifiedName) :
    Finset Import :=
  if visible h cm cc name then ∅
  else
    match getParentModule h name with
    | none => ∅
    | some p => {Import.mk none p}

/-- The imports resolved from a module's own declarations alone, in a
fixed module/class context. -/
def scopeResolved {Obj : Type} (h : Host Obj) (cm cc : Option Obj)
    (attrs : List QualifiedName) : Finset Import :=
  attrs.foldl (fun s n => s ∪ importDelta h cm cc n) ∅

/-- Walk written after the words of claim C1 (not after the source): try
proper prefixes from longest to shortest and choose the first one that
both imports as a module and passes the accessibility check, continuing
past prefixes that fail either condition. -/
def claimChosenParentGo {Obj : Type} (h : Host Obj) (name : QualifiedName) :
    Nat → Option QualifiedName
  | 0 => Option.none
  | k + 1 =>
    let p := name.take (k + 1)
    if isModule h p && isAccessible h name p then some p
    else claimChosenParentGo h name k

/-- Entry point of the claim-C1 walk over all proper prefixes. -/
def claimChosenParent {Obj : Type} (h : Host Obj) (name : QualifiedName) :
    Option QualifiedName :=
  claimChosenParentGo h name (name.length - 1)

/-- The longest-to-shortest walk that stops at the first prefix importable
as a module, with no accessibility gate; used to phrase what
_get_parent_module actually chooses. -/
def firstImportableParentGo {Obj : Type} (h : Host Obj) (name : QualifiedName) :
    Nat → Option QualifiedName
  | 0 => Option.none
  | k + 1 =>
    let p := name.take (k + 1)
    if isModule h p then some p else firstImportableParentGo h name k

/-- The longest proper prefix of `name` that imports as a module, if any. -/
def firstImportableParent {Obj : Type} (h : Host Obj) (name : QualifiedName) :
    Option QualifiedName :=
  firstImportableParentGo h name (name.length - 1)

/-- The fixed set of legacy / lower-case shorthand head names of
FixTypingTypeNames (its private class attribute of typing names). -/
def typingNames : List Identifier :=
  ["Annotated", "Callable", "Dict", "Iterator", "ItemsView", "Iterable",
   "KeysView", "List", "Optional", "Set", "Sequence", "Tuple", "Union",
   "ValuesView", "iterator", "iterable", "sequence"]

/-- Python `word[0].upper() + word[1:]` (upper-case the first character);
only ever applied to the ASCII members of `typingNames`. -/
def capitalize (s : String) : String :=
  match s.data with
  | [] => s
  | c :: cs => String.mk (Char.toUpper c :: cs)

/-- FixTypingTypeNames.parse_annotation_str applied to the result of the
inner pass: non-resolved results pass through; a resolved type must have
a non-empty name (the source asserts this, embedded as `Option.none`);
when the head segment is one of `typingNames` the whole name is replaced
by the two-segment canonical path `typing.<Capitalized-head>`. -/
def fixTypingTypeNames : Ann → Option Ann
  | Ann.resolvedType name params =>
    match name with
    | [] => Option.none
    | w :: rest =>
      if w ∈ typingNames then some (Ann.resolvedType ["typing", capitalize w] params)
      else some (Ann.resolvedType (w :: rest) params)
  | a => some a

/-- Rewrite written after the words of claim C4 (not after the source):
rewrite only the head segment to its canonical capitalized typing path
and keep the segments after the head. -/
def claimHeadRewrite : Ann → Ann
  | Ann.resolvedType (w :: rest) params =>
    if w ∈ typingNames then Ann.resolvedType ("typing" :: capitalize w :: rest) params
    else Ann.resolvedType (w :: rest) params
  | a => a

/-- ReplaceReadWritePropertyWithField.handle_class_member applied to the
inner pass's result: a property with both accessors, a getter taking only
the receiver, a setter taking exactly one value argument, and equal
getter-return / setter-value annotations collapses to a plain field of
that type; everything else passes through. -/
def replaceRWProp : ClassMember → ClassMember
  | ClassMember.property p =>
    match p.getter, p.setter with
    | some g, some s =>
      if g.args.length = 1 then
        if s.args.length = 2 then
          match s.args[1]? with
          | some a =>
            if annOptBeq g.returns a.annot then
              ClassMember.field (Field.mk (Attribute.mk p.name none g.returns) none)
            else ClassMember.property p
          | none => ClassMember.property p
        else ClassMember.property p
      else ClassMember.property p
    | _, _ => ClassMember.property p
  | m => m

/-- The ASCII restriction of Python's Unicode-aware `\w` table.  The
matcher itself is parameterized over the table (`wp` below); this
instance computes the concrete ASCII examples, on which Python's table
agrees with it. -/
def isWordChar (c : Char) : Bool := c.isAlphanum || c = '_'

/-- Character class `[\w.]` of the `name` group, over a word table. -/
def isNameCharP (wp : Char → Bool) (c : Char) : Bool := wp c || c = '.'

/-- ASCII instance of the name-group class. -/
def isNameChar (c : Char) : Bool := isNameCharP isWordChar c

/-- Character class `[a-fA-F0-9]` of the `address` group (spelled out in
the pattern, so independent of the Unicode tables). -/
def isHexDigit (c : Char) : Bool :=
  c.isDigit || ('a' ≤ c && c ≤ 'f') || ('A' ≤ c && c ≤ 'F')

/-- The ASCII restriction of Python's Unicode-aware `\s` table, the
class of the capsule group's separator. -/
def isSpaceChar (c : Char) : Bool :=
  c = ' ' || c = '\t' || c = '\n' || c = '\x0d' || c = '\x0b' || c = '\x0c'

/-- Strip an exact literal character sequence off the head of `l`,
returning the remainder; the matching of the regex's literal parts. -/
def stripLit : List Char → List Char → Option (List Char)
  | [], l => some l
  | _ :: _, [] => Option.none
  | c :: cs, x :: l => if x = c then stripLit cs l else Option.none

/-- Match the pattern tail `at 0x[a-fA-F0-9]+>` at the head of `l`,
returning the remainder after the closing bracket.  A `+` whose class
excludes the following literal character can only match its maximal run,
so no backtracking is needed here. -/
def matchTail (l : List Char) : Option (List Char) :=
  match stripLit ('a' :: 't' :: ' ' :: '0' :: 'x' :: []) l with
  | none => Option.none
  | some rest =>
    if (rest.takeWhile isHexDigit).isEmpty then Option.none
    else
      match rest.dropWhile isHexDigit with
      | x :: r => if x = '>' then some r else Option.none
      | [] => Option.none

/-- Start positions left by `0, 1, 2, ...` iterations of the greedy group
`(\w+\s)*` over word table `wp` and whitespace table `sp`: each iteration
is forced to consume a maximal word run plus one whitespace character.
The `fuel` argument only bounds the recursion; `fuel = l.length` always
suffices since every iteration consumes at least two characters. -/
def starPositionsF (wp sp : Char → Bool) : Nat → List Char → List (List Char)
  | 0, l => [l]
  | fuel + 1, l =>
    l :: (if (l.takeWhile wp).isEmpty then []
          else
            match l.dropWhile wp with
            | c :: rest => if sp c then starPositionsF wp sp fuel rest else []
            | [] => [])

/-- All star-group stop positions for the capsule group at `l`. -/
def starPositions (wp sp : Char → Bool) (l : List Char) : List (List Char) :=
  starPositionsF wp sp l.length l

/-- Try the whole FixValueReprRandomAddress pattern
`<[\w.]+ object (\w+\s)*at 0x[a-fA-F0-9]+>` at the head of `l`, over the
character tables `wp` / `sp`.  On success, return the text of the `name`
group and the remainder after the match.  Greediness of the star is
Python's: the largest iteration count whose continuation matches wins,
hence the reversed position list. -/
def matchAt (wp sp : Char → Bool) (l : List Char) : Option (List Char × List Char) :=
  match l with
  | [] => Option.none
  | c :: rest =>
    if c = '<' then
      if (rest.takeWhile (isNameCharP wp)).isEmpty then Option.none
      else
        match stripLit (' ' :: 'o' :: 'b' :: 'j' :: 'e' :: 'c' :: 't' :: ' ' :: [])
            (rest.dropWhile (isNameCharP wp)) with
        | none => Option.none
        | some rest2 =>
          match ((starPositions wp sp rest2).reverse).findSome? matchTail with
          | some r => some (rest.takeWhile (isNameCharP wp), r)
          | none => Option.none
    else Option.none

/-- re.sub over the whole text: scan left to right, replace each
non-overlapping match by `<name object>`, resume after the match.  The
`fuel` argument only bounds the recursion; `fuel = l.length` always
suffices since a match consumes at least one character. -/
def subAddrF (wp sp : Char → Bool) : Nat → List Char → List Char
  | 0, l => l
  | _ + 1, [] => []
  | fuel + 1, c :: rest =>
    match matchAt wp sp (c :: rest) with
    | some (nm, rem) => '<' :: (nm ++ (" object>".data ++ subAddrF wp sp fuel rem))
    | none => c :: subAddrF wp sp fuel rest

/-- FixValueReprRandomAddress.value_to_repr applied to the repr text
produced by the inner pass, against the host's `\w` / `\s` tables. -/
def fixValueRepr (wp sp : Char → Bool) (s : String) : String :=
  String.mk (subAddrF wp sp s.data.length s.data)

/-- One substring matching the address pattern, by groups: the dotted
name, the capsule words each with its single whitespace separator, and
the hexadecimal address. -/
structure AddrMatch where
  nm : List Char
  caps : List (List Char × Char)
  hex : List Char

/-- The text the capsule group `(\w+\s)*` matched. -/
def capsText : List (List Char × Char) → List Char
  | [] => []
  | (w, s) :: rest => w ++ s :: capsText rest

/-- The text of one whole pattern occurrence, after the opening
bracket. -/
def bInner (b : AddrMatch) : List Char :=
  b.nm ++ (' ' :: 'o' :: 'b' :: 'j' :: 'e' :: 'c' :: 't' :: ' ' ::
    (capsText b.caps ++ ('a' :: 't' :: ' ' :: '0' :: 'x' :: (b.hex ++ '>' :: []))))

/-- The full text of one pattern occurrence
`<name object words... at 0xHEX>`. -/
def blockText (b : AddrMatch) : List Char := '<' :: bInner b

/-- The replacement `<name object>` of one occurrence. -/
def cleanBlock (b : AddrMatch) : List Char :=
  '<' :: (b.nm ++ (' ' :: 'o' :: 'b' :: 'j' :: 'e' :: 'c' :: 't' :: '>' :: []))

/-- A repr text assembled from alternating glue segments and pattern
occurrences, closed by a trailing glue segment. -/
def reprText : List (List Char × AddrMatch) → List Char → List Char
  | [], tail => tail
  | (pre, b) :: rest, tail => pre ++ (blockText b ++ reprText rest tail)

/-- The same repr with every occurrence replaced by `<name object>` and
all glue kept. -/
def cleanText : List (List Char × AddrMatch) → List Char → List Char
  | [], tail => tail
  | (pre, b) :: rest, tail => pre ++ (cleanBlock b ++ cleanText rest tail)

/-- A glue segment in which no match can begin: every match starts with
an opening bracket, of which the segment has none. -/
def noTag (l : List Char) : Prop := ∀ c ∈ l, c ≠ '<'

/-- Well-formedness of one occurrence against the character tables: a
non-empty name of name characters, capsule words that are non-empty word
runs each followed by one whitespace character, and a non-empty
hexadecimal address. -/
structure GoodBlock (wp sp : Char → Bool) (b : AddrMatch) : Prop where
  nmNe : b.nm ≠ []
  nmChars : ∀ c ∈ b.nm, isNameCharP wp c = true
  capsOk : ∀ u ∈ b.caps, u.1 ≠ [] ∧ (∀ c ∈ u.1, wp c = true) ∧ sp u.2 = true
  hexNe : b.hex ≠ []
  hexChars : ∀ c ∈ b.hex, isHexDigit c = true

/-- The facts about the host's `\w` / `\s` tables the matcher relies on;
Python's Unicode tables satisfy every one of them, as does the ASCII
restriction. -/
structure RegexFacts (wp sp : Char → Bool) : Prop where
  hexWord : ∀ c, isHexDigit c = true → wp c = true
  spaceNotWord : ∀ c, sp c = true → wp c = false
  wpA : wp 'a' = true
  wpT : wp 't' = true
  wp0 : wp '0' = true
  wpX : wp 'x' = true
  wpSp : wp ' ' = false
  wpGt : wp '>' = false
  spSp : sp ' ' = true
  spGt : sp '>' = false

/-- The stop positions the greedy star walk produces over
`capsule-words at 0xHEX>post`: one position before each remaining capsule
word, one right before the literal `at`, and one last position after the
star has also swallowed `at ` (where the continuation then fails). -/
def starPosList (hex post : List Char) : List (List Char × Char) → List (List Char)
  | [] => ['a' :: 't' :: ' ' :: '0' :: 'x' :: (hex ++ '>' :: post),
           '0' :: 'x' :: (hex ++ '>' :: post)]
  | u :: rest =>
    (capsText (u :: rest) ++ ('a' :: 't' :: ' ' :: '0' :: 'x' :: (hex ++ '>' :: post)))
      :: starPosList hex post rest

/-- A two-occurrence example repr for FixValueReprRandomAddress: one
plain dotted-name block and one capsule block with an extra word,
separated and followed by glue text. -/
def segsW : List (List Char × AddrMatch) :=
  [("val: ".data, AddrMatch.mk "mypkg.Foo".data [] "55aa1234".data),
   (" and ".data, AddrMatch.mk "capsule".data [("NULL".data, ' ')] "1".data)]

/-- Lexicographic code-point comparison of character lists, the order
Python's `sorted` uses on identifier strings. -/
def charListLe : List Char → List Char → Bool
  | [], _ => true
  | _ :: _, [] => false
  | a :: as, b :: bs => if a < b then true else if b < a then false else charListLe as bs

/-- Lexicographic code-point comparison of strings. -/
def strLeB (a b : String) : Bool := charListLe a.data b.data

/-- The string order as a relation, for sortedness statements. -/
def strLe : Identifier → Identifier → Prop := fun a b => strLeB a b = true

/-- Decision procedure for `strLe`. -/
def strLeDec : DecidableRel strLe := fun a b => instDecidableEqBool (strLeB a b) true

/-- Python `name.startswith("_")`: the first character is an underscore. -/
def startsWithUnderscore (s : String) : Bool :=
  match s.data with
  | '_' :: _ => true
  | _ => false

/-- The filtered, deduplicated, sorted public-name list that
FixMissing__all__Attribute synthesizes: names of classes, attributes,
functions, aliases, named imports and sub-modules, minus
underscore-prefixed ones (`sorted(set(filter(...)))`; insertion sort
stands for Python's sorted, and dedup for set collection). -/
def allPublicNames (m : Module) : List Identifier :=
  @List.insertionSort Identifier strLe strLeDec
    (((m.classes ++ m.attributes.map Attribute.name ++ m.functions ++ m.aliases
        ++ m.imports.filterMap Import.name ++ m.subModules).filter
      (fun n => !startsWithUnderscore n)).dedup)

/-- FixMissing__all__Attribute.handle_module applied to the inner pass's
module: keep any existing `__all__` attribute; otherwise append an
`__all__` attribute valued at the synthesized public-name list. -/
def fixMissingAllAttribute (m : Module) : Module :=
  if m.attributes.any (fun a => a.name == "__all__") then m
  else
    { m with
      attributes := m.attributes ++ [Attribute.mk "__all__" (some (allPublicNames m)) none] }

/-- The generic unresolved form `typing.ClassVar[dict]` that
FixMissingEnumMembersAnnotation matches on (its private class attribute). -/
def classVarDict : Ann :=
  Ann.resolvedType ["typing", "ClassVar"] (some [Ann.resolvedType ["dict"] none])

/-- FixMissingEnumMembersAnnotation._guess_dict_type.  The live mapping is
embedded as the list of `(handle_type (type key), handle_type (type
value))` pairs of its entries, in iteration order; Python's set
collection of those names is `dedup`.  An empty mapping yields `none`;
otherwise the key and value parameters are the single observed type or
the union of the observed types, wrapped in `typing.Dict` (the literal
`typing.Union` / `typing.Dict` annotations are the parses of the
annotation strings the source feeds to parse_annotation_str). -/
def guessDictType (d : List (QualifiedName × QualifiedName)) : Option Ann :=
  if d.isEmpty then Option.none
  else
    let keyTypes := (d.map Prod.fst).dedup
    let valueTypes := (d.map Prod.snd).dedup
    let keyType :=
      match keyTypes with
      | [t] => Ann.resolvedType t none
      | ts => Ann.resolvedType ["typing", "Union"]
          (some (ts.map (fun t => Ann.resolvedType t none)))
    let valueType :=
      match valueTypes with
      | [t] => Ann.resolvedType t none
      | ts => Ann.resolvedType ["typing", "Union"]
          (some (ts.map (fun t => Ann.resolvedType t none)))
    some (Ann.resolvedType ["typing", "Dict"] (some [keyType, valueType]))

/-- FixMissingEnumMembersAnnotation.handle_field applied to the inner
pass's field: only a field reached at a path ending in `__members__`,
whose live value is a dict and whose annotation equals
`typing.ClassVar[dict]`, and only when the type guess succeeds, has its
annotation's parameter list replaced by the guessed dict type. -/
def fixEnumMembersField (path : QualifiedName)
    (field : Option (List (QualifiedName × QualifiedName))) (result : Field) : Field :=
  match field with
  | some d =>
    if path.getLast? = some "__members__" && annOptBeq result.attr.annot (some classVarDict) then
      match guessDictType d with
      | some t =>
        { result with
          attr := { result.attr with
            annot := some (Ann.resolvedType ["typing", "ClassVar"] (some [t])) } }
      | none => result
    else result
  | none => result

/-- Concrete three-object host for settling C1: modules `a` and `a.b`
both import, `a.b` does not expose `c`, but the chain `b`, `c` is
reachable from `a` (the module `a` shadows its sub-module `b` with an
object that has a `c` attribute). -/
def hostA : Host Nat :=
  Host.mk (fun _ => false)
    (fun l => if l = ["a", "b"] then some 1 else if l = ["a"] then some 0 else none)
    (fun o s =>
      if o = 0 && s = "b" then some 2
      else if o = 2 && s = "c" then some 3
      else none)

/-- Concrete host where `m.x` resolves through module `m`. -/
def hostB : Host Nat :=
  Host.mk (fun _ => false)
    (fun l => if l = ["m"] then some 0 else none)
    (fun o s => if o = 0 && s = "x" then some 1 else none)

/-- Host with nothing importable and nothing visible. -/
def hostEmpty : Host Nat :=
  Host.mk (fun _ => false) (fun _ => none) (fun _ _ => none)

/-- Fresh resolver state: no accumulated imports, no context, no errors. -/
def st0 : St Nat := St.mk ∅ none none []

mutual

/-- The Bool equality `annBeq` decides propositional equality. -/
theorem annBeq_iff : ∀ a b : Ann, annBeq a b = true ↔ a = b
  | .resolvedType n1 p1, .resolvedType n2 p2 => by
    match p1, p2 with
    | Option.none, Option.none => simp [annBeq]
    | Option.none, Option.some l2 => simp [annBeq]
    | Option.some l1, Option.none => simp [annBeq]
    | Option.some l1, Option.some l2 => simp [annBeq, annBeq_listBeq_iff l1 l2]
  | .resolvedType n1 p1, .value r2 => by simp [annBeq]
  | .resolvedType n1 p1, .invalidExpression t2 => by simp [annBeq]
  | .value r1, .resolvedType n2 p2 => by simp [annBeq]
  | .value r1, .value r2 => by simp [annBeq]
  | .value r1, .invalidExpression t2 => by simp [annBeq]
  | .invalidExpression t1, .resolvedType n2 p2 => by simp [annBeq]
  | .invalidExpression t1, .value r2 => by simp [annBeq]
  | .invalidExpression t1, .invalidExpression t2 => by simp [annBeq]

/-- Elementwise version of `annBeq_iff` for parameter lists. -/
theorem annBeq_listBeq_iff : ∀ xs ys : List Ann, annBeq.listBeq xs ys = true ↔ xs = ys
  | [], [] => by simp [annBeq.listBeq]
  | [], _ :: _ => by simp [annBeq.listBeq]
  | _ :: _, [] => by simp [annBeq.listBeq]
  | x :: xs, y :: ys => by
    simp [annBeq.listBeq, annBeq_iff x y, annBeq_listBeq_iff xs ys]

end

/-- `annOptBeq` decides propositional equality of optional annotations. -/
theorem annOptBeq_iff (a b : Option Ann) : annOptBeq a b = true ↔ a = b := by
  cases a <;> cases b <;> simp [annOptBeq, annBeq_iff]

/-- Claim C4, counterexample.  On the parsed annotation `iterator.x` the
pass does not keep the segment after the head: the whole name is replaced
by `typing.Iterator`, so a qualified-name segment after a shorthand head
is dropped, not left unchanged. -/
theorem c4_tail_segments_dropped :
    fixTypingTypeNames (Ann.resolvedType ["iterator", "x"] none)
      = some (Ann.resolvedType ["typing", "Iterator"] none)
    ∧ fixTypingTypeNames (Ann.resolvedType ["iterator", "x"] none)
      ≠ some (claimHeadRewrite (Ann.resolvedType ["iterator", "x"] none))
    ∧ claimHeadRewrite (Ann.resolvedType ["iterator", "x"] none)
      = Ann.resolvedType ["typing", "Iterator", "x"] none := by
  refine ⟨rfl, ?_, rfl⟩
  intro hEq
  have : (["typing", "Iterator"] : QualifiedName) = ["typing", "Iterator", "x"] := by
    have h2 := hEq
    rw [show claimHeadRewrite (Ann.resolvedType ["iterator", "x"] none)
          = Ann.resolvedType ["typing", "Iterator", "x"] none from rfl] at h2
    rw [show fixTypingTypeNames (Ann.resolvedType ["iterator", "x"] none)
          = some (Ann.resolvedType ["typing", "Iterator"] none) from rfl] at h2
    injection h2 with h3
    injection h3
  simp at this

/-- A shorthand head makes the pass replace the whole name with the
canonical two-segment typing path, keeping the parameters. -/
theorem fixTypingHeadRewrite (w : Identifier) (rest : QualifiedName)
    (params : Option (List Ann)) (hw : w ∈ typingNames) :
    fixTypingTypeNames (Ann.resolvedType (w :: rest) params)
      = some (Ann.resolvedType ["typing", capitalize w] params) := by
  simp [fixTypingTypeNames, hw]

/-- Claim C4, amended: when the head segment of a resolved type is one of
the fixed shorthand names, the whole qualified name is replaced by the
two-segment canonical path `typing.<Capitalized-head>` — segments after
the head are discarded — while the parameter list is left unchanged. -/
theorem c4_head_canonicalization_amended (w : Identifier) (rest : QualifiedName)
    (params : Option (List Ann)) (hw : w ∈ typingNames) :
    fixTypingTypeNames (Ann.resolvedType (w :: rest) params)
      = some (Ann.resolvedType ["typing", capitalize w] params) :=
  fixTypingHeadRewrite w rest params hw

/-- Witness for the amended C4 at the shorthand head `iterator`. -/
theorem c4_head_canonicalization_amended_w :
    ("iterator" : Identifier) ∈ typingNames
    ∧ fixTypingTypeNames (Ann.resolvedType ["iterator", "x"] (some [Ann.value "3"]))
      = some (Ann.resolvedType ["typing", "Iterator"] (some [Ann.value "3"])) :=
  ⟨by decide, c4_head_canonicalization_amended "iterator" ["x"] (some [Ann.value "3"])
      (by decide)⟩

/-- Claim C5: the generic-alias canonicalization is idempotent — whenever
the pass maps an input to an output, it maps that output to itself — and
an already-canonical name with head `typing` passes through unchanged. -/
theorem c5_generic_alias_rewrite_idempotent :
    (∀ a b : Ann, fixTypingTypeNames a = some b → fixTypingTypeNames b = some b)
    ∧ (∀ (rest : QualifiedName) (params : Option (List Ann)),
        fixTypingTypeNames (Ann.resolvedType ("typing" :: rest) params)
          = some (Ann.resolvedType ("typing" :: rest) params)) := by
  constructor
  · intro a b hab
    match a with
    | Ann.value r => cases hab; rfl
    | Ann.invalidExpression t => cases hab; rfl
    | Ann.resolvedType [] params => cases hab
    | Ann.resolvedType (w :: rest) params =>
      by_cases hw : w ∈ typingNames
      · rw [fixTypingHeadRewrite w rest params hw] at hab
        cases hab
        simp [fixTypingTypeNames, show ("typing" : Identifier) ∉ typingNames from by decide]
      · rw [show fixTypingTypeNames (Ann.resolvedType (w :: rest) params)
              = some (Ann.resolvedType (w :: rest) params) from by
            simp [fixTypingTypeNames, hw]] at hab
        cases hab
        simp [fixTypingTypeNames, hw]
  · intro rest params
    simp [fixTypingTypeNames, show ("typing" : Identifier) ∉ typingNames from by decide]

/-- Witness for C5 at the shorthand head `sequence`. -/
theorem c5_generic_alias_rewrite_idempotent_w :
    fixTypingTypeNames (Ann.resolvedType ["sequence"] none)
      = some (Ann.resolvedType ["typing", "Sequence"] none)
    ∧ fixTypingTypeNames (Ann.resolvedType ["typing", "Sequence"] none)
      = some (Ann.resolvedType ["typing", "Sequence"] none) :=
  ⟨rfl, c5_generic_alias_rewrite_idempotent.1 (Ann.resolvedType ["sequence"] none)
    (Ann.resolvedType ["typing", "Sequence"] none) rfl⟩

/-- Claim C2, counterexample.  On the empty qualified name `_add_import`
registers no import but it does report a name-resolution diagnostic (the
guard `len(name) > 0` only protects the visibility checks, after which
`_get_parent_module` of the empty name returns `None` and a
NameResolutionError naming the empty name is reported). -/
theorem c2_empty_name_reports_diagnostic :
    (addImport hostEmpty st0 []).extraImports = ∅
    ∧ (addImport hostEmpty st0 []).errors = [[]]
    ∧ (addImport hostEmpty st0 []).errors ≠ st0.errors := by
  refine ⟨rfl, rfl, ?_⟩
  rw [show (addImport hostEmpty st0 []).errors = [[]] from rfl]
  simp [st0]

/-- Claim C2, amended: for the empty qualified name the import-adding
operation registers no import, but it does report exactly one
name-resolution diagnostic, naming the empty qualified name. -/
theorem c2_empty_name_amended {Obj : Type} (h : Host Obj) (st : St Obj) :
    addImport h st [] = { st with errors := st.errors ++ [[]] } := by
  simp [addImport, visible, getParentModule, gpmGo]

/-- Claim C9: any import present after an `_add_import` call either was
already accumulated or is a whole-module import with no bound name; the
resolver never fabricates a name-from-module import. -/
theorem c9_resolver_imports_whole_module {Obj : Type} (h : Host Obj) (st : St Obj)
    (name : QualifiedName) (imp : Import)
    (hmem : imp ∈ (addImport h st name).extraImports) :
    imp ∈ st.extraImports ∨ imp.name = none := by
  unfold addImport at hmem
  by_cases hv : visible h st.currentModule st.currentClass name = true
  · rw [if_pos hv] at hmem
    exact Or.inl hmem
  · rw [if_neg hv] at hmem
    cases hgp : getParentModule h name with
    | none => rw [hgp] at hmem; exact Or.inl hmem
    | some p =>
      rw [hgp] at hmem
      simp only [Finset.mem_insert] at hmem
      cases hmem with
      | inl he => exact Or.inr (by rw [he])
      | inr hm => exact Or.inl hm

/-- Witness for C9: resolving `m.x` through module `m` adds the
whole-module import of `m` with no bound name. -/
theorem c9_resolver_imports_whole_module_w :
    Import.mk none ["m"] ∈ (addImport hostB st0 ["m", "x"]).extraImports
    ∧ (Import.mk none ["m"] ∈ st0.extraImports ∨ (Import.mk none ["m"]).name = none) :=
  ⟨by decide, c9_resolver_imports_whole_module hostB st0 ["m", "x"] _ (by decide)⟩

/-- The `_get_parent_module` walk factors as: find the longest proper
prefix importable as a module, then gate it by the accessibility check
(failing that gate aborts the walk instead of trying shorter prefixes). -/
theorem gpmGo_eq_first_gate {Obj : Type} (h : Host Obj) (name : QualifiedName) :
    ∀ k, gpmGo h name k
      = (firstImportableParentGo h name k).bind
          (fun p => if isAccessible h name p then some p else Option.none)
  | 0 => rfl
  | k + 1 => by
    by_cases hm : isModule h (name.take (k + 1)) = true
    · simp [gpmGo, firstImportableParentGo, hm]
    · simp [gpmGo, firstImportableParentGo, hm, gpmGo_eq_first_gate h name k]

/-- Claim C1, counterexample.  On `a.b.c` over `hostA`, the walk the
claim describes chooses the prefix `a` (module `a.b` fails the
accessibility check but the shorter prefix `a` passes both conditions),
yet `_add_import` registers nothing and reports a diagnostic, because the
source stops at the longest importable prefix `a.b` when its
accessibility check fails. -/
theorem c1_longest_inaccessible_stops_walk :
    claimChosenParent hostA ["a", "b", "c"] = some ["a"]
    ∧ getParentModule hostA ["a", "b", "c"] = none
    ∧ (addImport hostA st0 ["a", "b", "c"]).extraImports = ∅
    ∧ (addImport hostA st0 ["a", "b", "c"]).errors = [["a", "b", "c"]] := by
  refine ⟨by decide, by decide, rfl, rfl⟩

/-- Claim C1, amended: for a non-empty name not visible from the builtin
namespace, the current class or the current module, the resolver walks
proper prefixes from longest to shortest and takes the first one
that imports as a module; the chosen prefix is registered as a
whole-module import only if it also exposes every remaining suffix
segment attribute-by-attribute, and otherwise — including when the
longest importable prefix fails that check even though a shorter prefix would
satisfy both conditions — exactly one diagnostic naming the qualified
name is reported, the import set is unchanged, and the attribute carrying
the reference is passed through rather than dropped. -/
theorem c1_resolver_walk_amended {Obj : Type} (h : Host Obj) (st : St Obj)
    (name : QualifiedName) (_hne : name ≠ [])
    (hvis : visible h st.currentModule st.currentClass name = false) :
    getParentModule h name
      = (firstImportableParent h name).bind
          (fun p => if isAccessible h name p then some p else Option.none)
    ∧ (∀ p, getParentModule h name = some p →
        addImport h st name
          = { st with extraImports := insert (Import.mk none p) st.extraImports })
    ∧ (getParentModule h name = none →
        addImport h st name = { st with errors := st.errors ++ [name] })
    ∧ (∀ a : Attribute, (handleAttribute h st (some a)).1 = some a) := by
  refine ⟨gpmGo_eq_first_gate h name (name.length - 1), ?_, ?_, ?_⟩
  · intro p hp
    simp [addImport, hvis, hp]
  · intro hp
    simp [addImport, hvis, hp]
  · intro a
    rfl

/-- Witness for the amended C1 over `hostB`: `m.x` is non-empty, not
visible, and resolves to a whole-module import of `m`; over `hostEmpty`
the same name is unresolvable and reported. -/
theorem c1_resolver_walk_amended_w :
    (["m", "x"] : QualifiedName) ≠ []
    ∧ visible hostB st0.currentModule st0.currentClass ["m", "x"] = false
    ∧ getParentModule hostB ["m", "x"]
        = (firstImportableParent hostB ["m", "x"]).bind
            (fun p => if isAccessible hostB ["m", "x"] p then some p else Option.none)
    ∧ (∀ p, getParentModule hostB ["m", "x"] = some p →
        addImport hostB st0 ["m", "x"]
          = { st0 with extraImports := insert (Import.mk none p) st0.extraImports })
    ∧ (getParentModule hostB ["m", "x"] = none →
        addImport hostB st0 ["m", "x"] = { st0 with errors := st0.errors ++ [["m", "x"]] })
    ∧ (∀ a : Attribute, (handleAttribute hostB st0 (some a)).1 = some a) :=
  ⟨by decide, by decide,
    c1_resolver_walk_amended hostB st0 ["m", "x"] (by decide) (by decide)⟩

/-- Claim C6: a property with both accessors collapses to a plain field
exactly when the getter takes only the receiver, the setter takes exactly
one value argument beyond the receiver, and the getter's return
annotation equals the setter's value-parameter annotation, the field
carrying that annotation under the property's name; in every other shape
the property is returned unchanged. -/
theorem c6_property_collapse_iff_shapes_and_types (p : Property) (g s : Func)
    (hg : p.getter = some g) (hs : p.setter = some s) :
    ((∃ a, g.args.length = 1 ∧ s.args.length = 2 ∧ s.args[1]? = some a
        ∧ g.returns = a.annot) →
      replaceRWProp (ClassMember.property p)
        = ClassMember.field (Field.mk (Attribute.mk p.name none g.returns) none))
    ∧ (¬ (∃ a, g.args.length = 1 ∧ s.args.length = 2 ∧ s.args[1]? = some a
        ∧ g.returns = a.annot) →
      replaceRWProp (ClassMember.property p) = ClassMember.property p) := by
  constructor
  · rintro ⟨a, h1, h2, h3, h4⟩
    simp only [replaceRWProp, hg, hs, if_pos h1, if_pos h2, h3]
    rw [if_pos ((annOptBeq_iff g.returns a.annot).mpr h4)]
  · intro hno
    by_cases h1 : g.args.length = 1
    · by_cases h2 : s.args.length = 2
      · have h1lt : 1 < s.args.length := by omega
        cases h3 : s.args[1]? with
        | none =>
          exact absurd (List.getElem?_eq_getElem h1lt) (by rw [h3]; simp)
        | some a =>
          have h4 : ¬ g.returns = a.annot := fun h4 => hno ⟨a, h1, h2, h3, h4⟩
          simp only [replaceRWProp, hg, hs, if_pos h1, if_pos h2, h3]
          rw [if_neg (fun hb => h4 ((annOptBeq_iff g.returns a.annot).mp hb))]
      · simp only [replaceRWProp, hg, hs, if_pos h1, if_neg h2]
    · simp only [replaceRWProp, hg, hs, if_neg h1]

/-- The annotation `int` as parsed for the C6 examples. -/
def intAnn : Ann := Ann.resolvedType ["int"] none

/-- The annotation `str` as parsed for the C6 examples. -/
def strAnn : Ann := Ann.resolvedType ["str"] none

/-- C6 example property with getter `(self) -> int` and setter
`(self, arg1: int) -> None`. -/
def propGood : Property :=
  Property.mk "x" (some (Func.mk "x" [Arg.mk "self" none] (some intAnn)))
    (some (Func.mk "x" [Arg.mk "self" none, Arg.mk "arg1" (some intAnn)] none))

/-- C6 example property with getter `(self) -> int` and setter
`(self, arg1: str) -> None`. -/
def propBad : Property :=
  Property.mk "x" (some (Func.mk "x" [Arg.mk "self" none] (some intAnn)))
    (some (Func.mk "x" [Arg.mk "self" none, Arg.mk "arg1" (some strAnn)] none))

/-- Witness for C6: the matching int/int pair collapses to an int field;
the mismatched int/str pair is returned unchanged. -/
theorem c6_property_collapse_iff_shapes_and_types_w :
    replaceRWProp (ClassMember.property propGood)
      = ClassMember.field (Field.mk (Attribute.mk "x" none (some intAnn)) none)
    ∧ replaceRWProp (ClassMember.property propBad) = ClassMember.property propBad := by
  constructor
  · exact (c6_property_collapse_iff_shapes_and_types propGood
      (Func.mk "x" [Arg.mk "self" none] (some intAnn))
      (Func.mk "x" [Arg.mk "self" none, Arg.mk "arg1" (some intAnn)] none) rfl rfl).1
      ⟨Arg.mk "arg1" (some intAnn), rfl, rfl, rfl, rfl⟩
  · refine (c6_property_collapse_iff_shapes_and_types propBad
      (Func.mk "x" [Arg.mk "self" none] (some intAnn))
      (Func.mk "x" [Arg.mk "self" none, Arg.mk "arg1" (some strAnn)] none) rfl rfl).2 ?_
    rintro ⟨a, -, -, h3, h4⟩
    rw [show ([Arg.mk "self" none, Arg.mk "arg1" (some strAnn)][1]? : Option Arg)
          = some (Arg.mk "arg1" (some strAnn)) from rfl] at h3
    cases h3
    simp [intAnn, strAnn] at h4

/-- Claim C10: for a `__members__` field whose live value is a dict and
whose annotation is the generic unresolved `typing.ClassVar[dict]`, an
empty mapping leaves the field (and so that annotation) unchanged, while
a non-empty mapping always produces a guessed dict type and substitutes
it as the concrete parameter of the class-var annotation. -/
theorem c10_empty_members_annotation_unchanged (path : QualifiedName)
    (d : List (QualifiedName × QualifiedName)) (result : Field)
    (hp : path.getLast? = some "__members__")
    (ha : result.attr.annot = some classVarDict) :
    fixEnumMembersField path (some []) result = result
    ∧ (d ≠ [] → ∃ t, guessDictType d = some t
        ∧ (fixEnumMembersField path (some d) result).attr.annot
            = some (Ann.resolvedType ["typing", "ClassVar"] (some [t]))) := by
  constructor
  · simp only [fixEnumMembersField]
    split
    · rfl
    · rfl
  · intro hd
    have hguess : ∃ t, guessDictType d = some t := by
      unfold guessDictType
      rw [if_neg (by simpa using hd)]
      exact ⟨_, rfl⟩
    obtain ⟨t, ht⟩ := hguess
    refine ⟨t, ht, ?_⟩
    simp only [fixEnumMembersField]
    rw [hp, ha]
    have hcond : (decide ((some "__members__" : Option Identifier) = some "__members__")
        && annOptBeq (some classVarDict) (some classVarDict)) = true := by
      simp [annOptBeq, (annBeq_iff classVarDict classVarDict).mpr rfl]
    rw [if_pos hcond, ht]

/-- Witness for C10: a `Color.__members__` field annotated
`typing.ClassVar[dict]` is unchanged for the empty mapping and gets
`typing.Dict[str, int]` substituted for a one-entry mapping. -/
theorem c10_empty_members_annotation_unchanged_w :
    fixEnumMembersField ["Color", "__members__"] (some [])
        (Field.mk (Attribute.mk "__members__" none (some classVarDict)) none)
      = Field.mk (Attribute.mk "__members__" none (some classVarDict)) none
    ∧ ((([(["str"], ["int"])] : List (QualifiedName × QualifiedName)) ≠ []) →
        ∃ t, guessDictType [(["str"], ["int"])] = some t
          ∧ (fixEnumMembersField ["Color", "__members__"] (some [(["str"], ["int"])])
              (Field.mk (Attribute.mk "__members__" none (some classVarDict)) none)).attr.annot
              = some (Ann.resolvedType ["typing", "ClassVar"] (some [t]))) :=
  c10_empty_members_annotation_unchanged ["Color", "__members__"] [(["str"], ["int"])]
    (Field.mk (Attribute.mk "__members__" none (some classVarDict)) none) rfl rfl

/-- `_add_import` never touches the current-module context. -/
theorem addImport_currentModule {Obj : Type} (h : Host Obj) (st : St Obj)
    (n : QualifiedName) : (addImport h st n).currentModule = st.currentModule := by
  unfold addImport
  split
  · rfl
  · split <;> rfl

/-- `_add_import` never touches the current-class context. -/
theorem addImport_currentClass {Obj : Type} (h : Host Obj) (st : St Obj)
    (n : QualifiedName) : (addImport h st n).currentClass = st.currentClass := by
  unfold addImport
  split
  · rfl
  · split <;> rfl

/-- One `_add_import` call grows the accumulator by exactly its
context-determined contribution. -/
theorem addImport_extraImports {Obj : Type} (h : Host Obj) (st : St Obj)
    (n : QualifiedName) :
    (addImport h st n).extraImports
      = st.extraImports ∪ importDelta h st.currentModule st.currentClass n := by
  unfold addImport importDelta
  split
  · simp
  · split
    · simp
    · simp [Finset.insert_eq, Finset.union_comm]

/-- Folding `_add_import` over a list of names preserves the
current-module context. -/
theorem foldl_addImport_currentModule {Obj : Type} (h : Host Obj) :
    ∀ (attrs : List QualifiedName) (st : St Obj),
      (attrs.foldl (addImport h) st).currentModule = st.currentModule
  | [], st => rfl
  | n :: ns, st => by
    rw [List.foldl_cons, foldl_addImport_currentModule h ns (addImport h st n),
      addImport_currentModule]

/-- Folding `_add_import` over a list of names preserves the
current-class context. -/
theorem foldl_addImport_currentClass {Obj : Type} (h : Host Obj) :
    ∀ (attrs : List QualifiedName) (st : St Obj),
      (attrs.foldl (addImport h) st).currentClass = st.currentClass
  | [], st => rfl
  | n :: ns, st => by
    rw [List.foldl_cons, foldl_addImport_currentClass h ns (addImport h st n),
      addImport_currentClass]

/-- Splitting the initial accumulator out of the pure contribution fold. -/
theorem scopeResolved_foldl_init {Obj : Type} (h : Host Obj) (cm cc : Option Obj) :
    ∀ (attrs : List QualifiedName) (init : Finset Import),
      attrs.foldl (fun s n => s ∪ importDelta h cm cc n) init
        = init ∪ scopeResolved h cm cc attrs
  | [], init => by simp [scopeResolved]
  | n :: ns, init => by
    rw [List.foldl_cons, scopeResolved_foldl_init h cm cc ns (init ∪ importDelta h cm cc n)]
    rw [show scopeResolved h cm cc (n :: ns)
          = ns.foldl (fun s n => s ∪ importDelta h cm cc n) (∅ ∪ importDelta h cm cc n)
        from rfl]
    rw [scopeResolved_foldl_init h cm cc ns (∅ ∪ importDelta h cm cc n)]
    rw [Finset.empty_union, Finset.union_assoc]

/-- Folding `_add_import` grows the accumulator by exactly the imports
resolved from the processed names in the current context. -/
theorem foldl_addImport_extraImports {Obj : Type} (h : Host Obj) :
    ∀ (attrs : List QualifiedName) (st : St Obj),
      (attrs.foldl (addImport h) st).extraImports
        = st.extraImports ∪ scopeResolved h st.currentModule st.currentClass attrs
  | [], st => by simp [scopeResolved]
  | n :: ns, st => by
    rw [List.foldl_cons, foldl_addImport_extraImports h ns (addImport h st n)]
    rw [addImport_extraImports, addImport_currentModule, addImport_currentClass]
    rw [show scopeResolved h st.currentModule st.currentClass (n :: ns)
          = ns.foldl (fun s m => s ∪ importDelta h st.currentModule st.currentClass m)
              (∅ ∪ importDelta h st.currentModule st.currentClass n)
        from rfl]
    rw [scopeResolved_foldl_init h st.currentModule st.currentClass ns
      (∅ ∪ importDelta h st.currentModule st.currentClass n)]
    rw [Finset.empty_union, Finset.union_assoc]

mutual

/-- Processing a module restores the enclosing scope's accumulator,
current-module context and current-class context. -/
theorem processModule_restores {Obj : Type} (h : Host Obj) :
    ∀ (t : ModTree Obj) (st : St Obj),
      (processModule h st t).2.extraImports = st.extraImports
      ∧ (processModule h st t).2.currentModule = st.currentModule
      ∧ (processModule h st t).2.currentClass = st.currentClass
  | ModTree.mk live base attrs subs, st => by
    have hsubs := processSubs_preserves h subs
      (attrs.foldl (addImport h) { st with extraImports := ∅, currentModule := some live })
    refine ⟨rfl, rfl, ?_⟩
    show (processModule.processSubs h subs
      (attrs.foldl (addImport h)
        { st with extraImports := ∅, currentModule := some live })).2.currentClass
      = st.currentClass
    rw [hsubs.2.2, foldl_addImport_currentClass]

/-- Processing a list of sibling sub-modules preserves the accumulator
and both context fields of the state it is given. -/
theorem processSubs_preserves {Obj : Type} (h : Host Obj) :
    ∀ (ms : List (ModTree Obj)) (st : St Obj),
      (processModule.processSubs h ms st).2.extraImports = st.extraImports
      ∧ (processModule.processSubs h ms st).2.currentModule = st.currentModule
      ∧ (processModule.processSubs h ms st).2.currentClass = st.currentClass
  | [], st => ⟨rfl, rfl, rfl⟩
  | m :: ms, st => by
    have h1 := processModule_restores h m st
    have h2 := processSubs_preserves h ms (processModule h st m).2
    exact ⟨by rw [show (processModule.processSubs h (m :: ms) st).2
            = (processModule.processSubs h ms (processModule h st m).2).2 from rfl,
          h2.1, h1.1],
        by rw [show (processModule.processSubs h (m :: ms) st).2
            = (processModule.processSubs h ms (processModule h st m).2).2 from rfl,
          h2.2.1, h1.2.1],
        by rw [show (processModule.processSubs h (m :: ms) st).2
            = (processModule.processSubs h ms (processModule h st m).2).2 from rfl,
          h2.2.2, h1.2.2]⟩

end

/-- Claim C3: imports resolved while a module is processed accumulate in
a per-scope set that is merged into exactly that module's import set
(its declared imports joined with the imports resolved from its own
declarations, independent of its sub-modules, so nested resolutions
never leak upward), and the enclosing scope's accumulator and
current-module context are restored on exit. -/
theorem c3_scope_accumulator_restored_and_merged_once {Obj : Type} (h : Host Obj)
    (st : St Obj) (live : Obj) (base : Finset Import) (attrs : List QualifiedName)
    (subs : List (ModTree Obj)) :
    (processModule h st (ModTree.mk live base attrs subs)).2.extraImports
        = st.extraImports
    ∧ (processModule h st (ModTree.mk live base attrs subs)).2.currentModule
        = st.currentModule
    ∧ (processModule h st (ModTree.mk live base attrs subs)).1.imports
        = base ∪ scopeResolved h (some live) st.currentClass attrs := by
  refine ⟨rfl, rfl, ?_⟩
  show base ∪ (processModule.processSubs h subs
      (attrs.foldl (addImport h)
        { st with extraImports := ∅, currentModule := some live })).2.extraImports
    = base ∪ scopeResolved h (some live) st.currentClass attrs
  rw [(processSubs_preserves h subs _).1, foldl_addImport_extraImports]
  simp

/-- Names whose non-underscore check the C8 characterization quantifies
over: all named members of the six collections of a module. -/
def memberNames (m : Module) : List Identifier :=
  m.classes ++ m.attributes.map Attribute.name ++ m.functions ++ m.aliases
    ++ m.imports.filterMap Import.name ++ m.subModules

/-- The string order used for export-list sorting is total. -/
theorem charListLe_total : ∀ a b : List Char, charListLe a b = true ∨ charListLe b a = true
  | [], _ => Or.inl rfl
  | _ :: _, [] => Or.inr rfl
  | a :: as, b :: bs => by
    rcases lt_trichotomy a b with h | h | h
    · left; simp [charListLe, h]
    · subst h
      rcases charListLe_total as bs with h2 | h2
      · left; simp [charListLe, h2, lt_irrefl]
      · right; simp [charListLe, h2, lt_irrefl]
    · right; simp [charListLe, h]

/-- The string order used for export-list sorting is transitive. -/
theorem charListLe_trans : ∀ a b c : List Char,
    charListLe a b = true → charListLe b c = true → charListLe a c = true
  | [], _, _, _, _ => rfl
  | _ :: _, [], _, h1, _ => by simp [charListLe] at h1
  | _ :: _, _ :: _, [], _, h2 => by simp [charListLe] at h2
  | a :: as, b :: bs, c :: cs, h1, h2 => by
    simp only [charListLe] at h1 h2 ⊢
    rcases lt_trichotomy a b with hab | hab | hab
    · rcases lt_trichotomy b c with hbc | hbc | hbc
      · rw [if_pos (lt_trans hab hbc)]
      · subst hbc; rw [if_pos hab]
      · rw [if_neg (lt_asymm hbc), if_pos hbc] at h2; cases h2
    · subst hab
      rw [if_neg (lt_irrefl a), if_neg (lt_irrefl a)] at h1
      rcases lt_trichotomy a c with hac | hac | hac
      · rw [if_pos hac]
      · subst hac
        rw [if_neg (lt_irrefl a), if_neg (lt_irrefl a)] at h2 ⊢
        exact charListLe_trans as bs cs h1 h2
      · rw [if_neg (lt_asymm hac), if_pos hac] at h2; cases h2
    · rw [if_neg (lt_asymm hab), if_pos hab] at h1; cases h1

/-- Claim C8: a module that already has an `__all__` attribute is left
unchanged; otherwise exactly one `__all__` attribute is appended, valued
at a sorted, duplicate-free list holding precisely the
non-underscore-prefixed names of the module's classes, attributes,
functions, aliases, named imports and sub-modules. -/
theorem c8_all_attribute_synthesis (m : Module) :
    ((m.attributes.any (fun a => a.name == "__all__")) = true
      → fixMissingAllAttribute m = m)
    ∧ ((m.attributes.any (fun a => a.name == "__all__")) = false
      → fixMissingAllAttribute m
          = { m with attributes :=
              m.attributes ++ [Attribute.mk "__all__" (some (allPublicNames m)) none] }
        ∧ List.Sorted strLe (allPublicNames m)
        ∧ (allPublicNames m).Nodup
        ∧ ∀ s, s ∈ allPublicNames m ↔
            s ∈ memberNames m ∧ startsWithUnderscore s = false) := by
  constructor
  · intro hyes
    unfold fixMissingAllAttribute
    rw [if_pos hyes]
  · intro hno
    refine ⟨?_, ?_, ?_, ?_⟩
    · unfold fixMissingAllAttribute
      rw [if_neg (by rw [hno]; simp)]
    · exact @List.sorted_insertionSort Identifier strLe strLeDec
        ⟨fun a b => charListLe_total a.data b.data⟩
        ⟨fun a b c => charListLe_trans a.data b.data c.data⟩ _
    · exact ((@List.perm_insertionSort Identifier strLe strLeDec _).nodup_iff).mpr
        (List.nodup_dedup _)
    · intro s
      unfold allPublicNames
      rw [(@List.perm_insertionSort Identifier strLe strLeDec _).mem_iff,
        List.mem_dedup, List.mem_filter]
      simp [memberNames]

/-- Hexadecimal digits are word characters, so the greedy capsule group
can swallow an address-like word during backtracking. -/
theorem isHexDigit_isWordChar {c : Char} (h : isHexDigit c = true) : isWordChar c = true := by
  simp only [isHexDigit, Bool.or_eq_true, Bool.and_eq_true, decide_eq_true_eq] at h
  simp only [isWordChar, Char.isAlphanum, Bool.or_eq_true]
  rcases h with (h | ⟨h1, h2⟩) | ⟨h1, h2⟩
  · exact Or.inl (Or.inr h)
  · refine Or.inl (Or.inl ?_)
    simp only [Char.isAlpha, Char.isUpper, Char.isLower, Bool.or_eq_true, Bool.and_eq_true,
      decide_eq_true_eq]
    exact Or.inr ⟨UInt32.le_trans (show (97 : UInt32) ≤ Char.val 'a' by decide)
        (Char.le_def.mp h1),
      UInt32.le_trans (Char.le_def.mp h2) (show Char.val 'f' ≤ (122 : UInt32) by decide)⟩
  · refine Or.inl (Or.inl ?_)
    simp only [Char.isAlpha, Char.isUpper, Char.isLower, Bool.or_eq_true, Bool.and_eq_true,
      decide_eq_true_eq]
    exact Or.inl ⟨UInt32.le_trans (show (65 : UInt32) ≤ Char.val 'A' by decide)
        (Char.le_def.mp h1),
      UInt32.le_trans (Char.le_def.mp h2) (show Char.val 'F' ≤ (90 : UInt32) by decide)⟩

/-- takeWhile runs through a block that satisfies the predicate. -/
theorem takeWhile_append_all {p : Char → Bool} :
    ∀ {xs ys : List Char}, (∀ c ∈ xs, p c = true) →
      (xs ++ ys).takeWhile p = xs ++ ys.takeWhile p
  | [], ys, _ => rfl
  | x :: xs, ys, h => by
    rw [List.cons_append, List.takeWhile_cons, if_pos (h x (by simp)), List.cons_append,
      takeWhile_append_all (fun c hc => h c (by simp [hc]))]

/-- dropWhile drops a whole block that satisfies the predicate. -/
theorem dropWhile_append_all {p : Char → Bool} :
    ∀ {xs ys : List Char}, (∀ c ∈ xs, p c = true) →
      (xs ++ ys).dropWhile p = ys.dropWhile p
  | [], ys, _ => rfl
  | x :: xs, ys, h => by
    rw [List.cons_append, List.dropWhile_cons, if_pos (h x (by simp)),
      dropWhile_append_all (fun c hc => h c (by simp [hc]))]

/-- Stripping a literal off a text that starts with it leaves the rest. -/
theorem stripLit_append : ∀ (cs rest : List Char), stripLit cs (cs ++ rest) = some rest
  | [], rest => rfl
  | c :: cs, rest => by
    rw [List.cons_append, stripLit, if_pos rfl, stripLit_append cs rest]

/-- The closing bracket is no hexadecimal digit. -/
theorem hdGt : isHexDigit '>' = false := by decide

/-- In the ASCII tables, whitespace is never a word character (as in
Python's Unicode tables). -/
theorem isSpaceChar_not_isWordChar {c : Char} (h : isSpaceChar c = true) :
    isWordChar c = false := by
  simp only [isSpaceChar, Bool.or_eq_true, decide_eq_true_eq] at h
  rcases h with ((((h | h) | h) | h) | h) | h <;> subst h <;> decide

/-- The ASCII restrictions satisfy every table fact the matcher uses. -/
theorem regexFacts_ascii : RegexFacts isWordChar isSpaceChar :=
  ⟨fun _ h => isHexDigit_isWordChar h, fun _ h => isSpaceChar_not_isWordChar h,
    by decide, by decide, by decide, by decide, by decide, by decide, by decide, by decide⟩

/-- dropWhile never lengthens a list. -/
theorem dropWhile_length_le {p : Char → Bool} :
    ∀ l : List Char, (l.dropWhile p).length ≤ l.length
  | [] => le_refl _
  | c :: rest => by
    rw [List.dropWhile_cons]
    by_cases h : p c = true
    · rw [if_pos h]
      exact le_trans (dropWhile_length_le rest) (by simp)
    · rw [if_neg h]

/-- Stripping the literal `at 0x` off a text that starts with it. -/
theorem stripLit_at0x (rest : List Char) :
    stripLit ('a' :: 't' :: ' ' :: '0' :: 'x' :: [])
      ('a' :: 't' :: ' ' :: '0' :: 'x' :: rest) = some rest :=
  stripLit_append ('a' :: 't' :: ' ' :: '0' :: 'x' :: []) rest

/-- Stripping the literal ` object ` off a text that starts with it. -/
theorem stripLit_obj (rest : List Char) :
    stripLit (' ' :: 'o' :: 'b' :: 'j' :: 'e' :: 'c' :: 't' :: ' ' :: [])
      (' ' :: 'o' :: 'b' :: 'j' :: 'e' :: 'c' :: 't' :: ' ' :: rest) = some rest :=
  stripLit_append (' ' :: 'o' :: 'b' :: 'j' :: 'e' :: 'c' :: 't' :: ' ' :: []) rest

/-- The pattern tail succeeds on `at 0x` followed by a non-empty
hexadecimal run and the closing bracket. -/
theorem matchTail_hex (hex post : List Char) (h3 : hex ≠ [])
    (h4 : ∀ c ∈ hex, isHexDigit c = true) :
    matchTail ('a' :: 't' :: ' ' :: '0' :: 'x' :: (hex ++ '>' :: post)) = some post := by
  have hne : hex.isEmpty = false := by
    cases hex with
    | nil => exact absurd rfl h3
    | cons a as => rfl
  rw [matchTail, stripLit_at0x]
  simp [takeWhile_append_all h4, dropWhile_append_all h4, hne, hdGt]

/-- The pattern tail fails on a text that begins with the `0x` of an
address instead of the literal `at`. -/
theorem matchTail_0x (l : List Char) : matchTail ('0' :: 'x' :: l) = Option.none := by
  rw [matchTail]
  simp [stripLit]

/-- The greedy star walk over the capsule words followed by `at 0xHEX>`
stops exactly at each remaining capsule word, before the literal `at`,
and once more after also swallowing `at ` — the position at which the
continuation then fails on `0x`. -/
theorem starPositionsF_caps (wp sp : Char → Bool) (hf : RegexFacts wp sp)
    (hex post : List Char) (h4 : ∀ c ∈ hex, isHexDigit c = true) :
    ∀ (caps : List (List Char × Char)) (fuel : Nat),
      (∀ u ∈ caps, u.1 ≠ [] ∧ (∀ c ∈ u.1, wp c = true) ∧ sp u.2 = true) →
      (capsText caps ++ ('a' :: 't' :: ' ' :: '0' :: 'x' :: (hex ++ '>' :: post))).length
        ≤ fuel →
      starPositionsF wp sp fuel
          (capsText caps ++ ('a' :: 't' :: ' ' :: '0' :: 'x' :: (hex ++ '>' :: post)))
        = starPosList hex post caps
  | [], fuel, _, hfuel => by
    have hw : ∀ c ∈ hex, wp c = true := fun c hc => hf.hexWord c (h4 c hc)
    obtain ⟨g, rfl⟩ : ∃ g, fuel = g + 1 + 1 := by
      refine ⟨fuel - 2, ?_⟩
      simp only [capsText, List.nil_append, List.length_cons, List.length_append] at hfuel
      omega
    rw [starPosList, show capsText [] ++ ('a' :: 't' :: ' ' :: '0' :: 'x' :: (hex ++ '>' :: post))
        = 'a' :: 't' :: ' ' :: '0' :: 'x' :: (hex ++ '>' :: post) from by simp [capsText]]
    rw [starPositionsF]
    simp only [List.takeWhile_cons, List.dropWhile_cons, hf.wpA, hf.wpT, hf.wpSp, hf.wp0,
      hf.wpX, hf.wpGt, hf.spSp, hf.spGt, takeWhile_append_all hw, dropWhile_append_all hw,
      if_true, if_false, ite_true, ite_false, Bool.false_eq_true, List.isEmpty_cons,
      List.append_nil]
    rw [starPositionsF]
    simp only [List.takeWhile_cons, List.dropWhile_cons, hf.wpA, hf.wpT, hf.wpSp, hf.wp0,
      hf.wpX, hf.wpGt, hf.spSp, hf.spGt, takeWhile_append_all hw, dropWhile_append_all hw,
      if_true, if_false, ite_true, ite_false, Bool.false_eq_true, List.isEmpty_cons,
      List.append_nil]
  | (w, s) :: rest, fuel, hgood, hfuel => by
    have hu := hgood (w, s) (by simp)
    have hwNe : w ≠ [] := hu.1
    have hword : ∀ c ∈ w, wp c = true := hu.2.1
    have hs : sp s = true := hu.2.2
    have hwpS : wp s = false := hf.spaceNotWord s hs
    have hwE : w.isEmpty = false := by
      cases w with
      | nil => exact absurd rfl hwNe
      | cons a as => rfl
    obtain ⟨g, rfl⟩ : ∃ g, fuel = g + 1 := by
      refine ⟨fuel - 1, ?_⟩
      simp only [capsText, List.length_append, List.cons_append, List.length_cons] at hfuel
      omega
    rw [starPosList, show capsText ((w, s) :: rest)
          ++ ('a' :: 't' :: ' ' :: '0' :: 'x' :: (hex ++ '>' :: post))
        = w ++ s :: (capsText rest ++ ('a' :: 't' :: ' ' :: '0' :: 'x' :: (hex ++ '>' :: post)))
        from by simp [capsText]]
    rw [starPositionsF]
    rw [takeWhile_append_all hword, List.takeWhile_cons]
    simp only [hwpS, Bool.false_eq_true, if_false, ite_false, List.append_nil, hwE]
    rw [dropWhile_append_all hword, List.dropWhile_cons]
    simp only [hwpS, hs, Bool.false_eq_true, if_false, ite_false, if_true, ite_true]
    rw [starPositionsF_caps wp sp hf hex post h4 rest g
      (fun u hu2 => hgood u (by simp [hu2]))
      (by
        have hwpos : 0 < w.length := List.length_pos.mpr hwNe
        have hcap : (capsText ((w, s) :: rest)).length
            = w.length + 1 + (capsText rest).length := by
          simp [capsText]
          omega
        simp only [List.length_append, List.length_cons] at hfuel hcap ⊢
        omega)]

/-- The greedy search over the reversed stop positions settles on the
position right before the literal `at`, leaving exactly the text after
the closing bracket. -/
theorem findSome_starPosList (hex post : List Char) (h3 : hex ≠ [])
    (h4 : ∀ c ∈ hex, isHexDigit c = true) :
    ∀ caps : List (List Char × Char),
      ((starPosList hex post caps).reverse).findSome? matchTail = some post
  | [] => by
    rw [starPosList]
    rw [show (['a' :: 't' :: ' ' :: '0' :: 'x' :: (hex ++ '>' :: post),
        '0' :: 'x' :: (hex ++ '>' :: post)]).reverse
      = ['0' :: 'x' :: (hex ++ '>' :: post),
         'a' :: 't' :: ' ' :: '0' :: 'x' :: (hex ++ '>' :: post)] from by simp]
    rw [List.findSome?_cons, matchTail_0x, List.findSome?_cons,
      matchTail_hex hex post h3 h4]
  | u :: rest => by
    rw [starPosList, List.reverse_cons, List.findSome?_append,
      findSome_starPosList hex post h3 h4 rest]
    rfl

/-- The whole address pattern matches a well-formed occurrence block
followed by anything, captures the name group, and consumes exactly the
block. -/
theorem matchAt_block (wp sp : Char → Bool) (hf : RegexFacts wp sp) (b : AddrMatch)
    (post : List Char) (hb : GoodBlock wp sp b) :
    matchAt wp sp (blockText b ++ post) = some (b.nm, post) := by
  have hnmE : b.nm.isEmpty = false := by
    cases hnm : b.nm with
    | nil => exact absurd hnm hb.nmNe
    | cons a as => rfl
  have hnSp : isNameCharP wp ' ' = false := by
    simp [isNameCharP, hf.wpSp]
  have hsplit : bInner b ++ post
      = b.nm ++ (' ' :: 'o' :: 'b' :: 'j' :: 'e' :: 'c' :: 't' :: ' ' ::
        (capsText b.caps ++ ('a' :: 't' :: ' ' :: '0' :: 'x' :: (b.hex ++ '>' :: post)))) := by
    simp [bInner]
  rw [blockText, List.cons_append, matchAt, if_pos rfl, hsplit]
  rw [takeWhile_append_all hb.nmChars, List.takeWhile_cons]
  simp only [hnSp, Bool.false_eq_true, if_false, ite_false, List.append_nil, hnmE]
  rw [dropWhile_append_all hb.nmChars, List.dropWhile_cons]
  simp only [hnSp, Bool.false_eq_true, if_false, ite_false, stripLit_obj]
  rw [starPositions, starPositionsF_caps wp sp hf b.hex post hb.hexChars b.caps _
    hb.capsOk (le_refl _)]
  rw [findSome_starPosList b.hex post hb.hexNe hb.hexChars b.caps]

/-- Exhausted or empty input passes through the substitution loop. -/
theorem subAddrF_nil (wp sp : Char → Bool) (fuel : Nat) : subAddrF wp sp fuel [] = [] := by
  cases fuel <;> rfl

/-- A text in which the pattern matches at no position is returned
unchanged by the substitution loop. -/
theorem subAddrF_no_match (wp sp : Char → Bool) :
    ∀ (fuel : Nat) (l : List Char), l.length ≤ fuel →
      (∀ i, i ≤ l.length → matchAt wp sp (l.drop i) = Option.none) →
      subAddrF wp sp fuel l = l
  | 0, l, hfu, _ => by
    rw [List.length_eq_zero.mp (Nat.le_zero.mp hfu)]
    rfl
  | _ + 1, [], _, _ => rfl
  | fuel + 1, c :: rest, hfu, h => by
    have h0 : matchAt wp sp (c :: rest) = Option.none := by
      have := h 0 (by omega)
      rwa [List.drop_zero] at this
    rw [subAddrF, h0]
    show c :: subAddrF wp sp fuel rest = c :: rest
    rw [subAddrF_no_match wp sp fuel rest
      (by simp only [List.length_cons] at hfu; omega)
      (fun i hi => by
        have := h (i + 1) (by simp only [List.length_cons]; omega)
        rwa [List.drop_succ_cons] at this)]

/-- Stripping a literal shortens the text by exactly the literal. -/
theorem stripLit_length : ∀ (cs l r : List Char), stripLit cs l = some r →
    r.length + cs.length = l.length
  | [], _, _, h => by
    cases h
    simp
  | _ :: _, [], _, h => by cases h
  | c :: cs, x :: l, r, h => by
    rw [stripLit] at h
    by_cases hx : x = c
    · rw [if_pos hx] at h
      have := stripLit_length cs l r h
      simp only [List.length_cons]
      omega
    · rw [if_neg hx] at h
      cases h

/-- A successful pattern tail consumes at least one character. -/
theorem matchTail_length (l r : List Char) (h : matchTail l = some r) :
    r.length < l.length := by
  rw [matchTail] at h
  split at h
  · cases h
  · rename_i rest hs
    have hlen := stripLit_length _ _ _ hs
    split at h
    · cases h
    · split at h
      · rename_i x r2 hd
        split at h
        · cases h
          have hd2 : (rest.dropWhile isHexDigit).length ≤ rest.length :=
            dropWhile_length_le rest
          rw [hd] at hd2
          simp only [List.length_cons, List.length_nil] at hd2 hlen ⊢
          omega
        · cases h
      · cases h

/-- Every stop position of the star walk is a suffix-part of the walked
text, so no longer than it. -/
theorem starPositionsF_mem_length (wp sp : Char → Bool) :
    ∀ (fuel : Nat) (l p : List Char), p ∈ starPositionsF wp sp fuel l →
      p.length ≤ l.length
  | 0, l, p, h => by
    rw [starPositionsF] at h
    simp only [List.mem_singleton] at h
    simp [h]
  | fuel + 1, l, p, h => by
    rw [starPositionsF] at h
    simp only [List.mem_cons] at h
    rcases h with rfl | h
    · exact le_refl _
    · split at h
      · cases h
      · split at h
        · rename_i c rest hd
          split at h
          · have h1 := starPositionsF_mem_length wp sp fuel rest p h
            have h2 : (l.dropWhile wp).length ≤ l.length := dropWhile_length_le l
            rw [hd] at h2
            simp only [List.length_cons] at h2
            omega
          · cases h
        · cases h

/-- A successful match consumes at least one character of the text. -/
theorem matchAt_length (wp sp : Char → Bool) :
    ∀ (l nm rem : List Char), matchAt wp sp l = some (nm, rem) → rem.length < l.length
  | [], nm, rem, h => by rw [matchAt] at h; cases h
  | c :: rest, nm, rem, h => by
    rw [matchAt] at h
    split at h
    · split at h
      · cases h
      · split at h
        · cases h
        · rename_i rest2 hs
          split at h
          · rename_i r hfind
            cases h
            obtain ⟨p, hp, hpt⟩ := List.exists_of_findSome?_eq_some hfind
            have h1 := matchTail_length p _ hpt
            have h2 := starPositionsF_mem_length wp sp rest2.length rest2 p
              (by
                rw [starPositions] at hp
                exact List.mem_reverse.mp hp)
            have h3 := stripLit_length _ _ _ hs
            have h4 : (rest.dropWhile (isNameCharP wp)).length ≤ rest.length :=
              dropWhile_length_le rest
            simp only [List.length_cons, List.length_nil] at h3 ⊢
            omega
          · cases h
    · cases h

/-- Any two sufficient fuels drive the substitution loop to the same
result. -/
theorem subAddrF_fuel (wp sp : Char → Bool) :
    ∀ (f1 f2 : Nat) (l : List Char), l.length ≤ f1 → l.length ≤ f2 →
      subAddrF wp sp f1 l = subAddrF wp sp f2 l
  | _, _, [], _, _ => by rw [subAddrF_nil, subAddrF_nil]
  | 0, _, c :: rest, h1, _ => by simp at h1
  | _ + 1, 0, c :: rest, _, h2 => by simp at h2
  | f1 + 1, f2 + 1, c :: rest, h1, h2 => by
    cases hm : matchAt wp sp (c :: rest) with
    | none =>
      rw [subAddrF, subAddrF, hm]
      show c :: subAddrF wp sp f1 rest = c :: subAddrF wp sp f2 rest
      rw [subAddrF_fuel wp sp f1 f2 rest
        (by simp only [List.length_cons] at h1; omega)
        (by simp only [List.length_cons] at h2; omega)]
    | some p =>
      obtain ⟨nm, rem⟩ := p
      have hlt := matchAt_length wp sp (c :: rest) nm rem hm
      rw [subAddrF, subAddrF, hm]
      show '<' :: (nm ++ (" object>".data ++ subAddrF wp sp f1 rem))
          = '<' :: (nm ++ (" object>".data ++ subAddrF wp sp f2 rem))
      rw [subAddrF_fuel wp sp f1 f2 rem
        (by simp only [List.length_cons] at h1 hlt; omega)
        (by simp only [List.length_cons] at h2 hlt; omega)]

/-- A character other than the opening bracket starts no match. -/
theorem matchAt_cons_ne (wp sp : Char → Bool) {c : Char} (l : List Char) (h : c ≠ '<') :
    matchAt wp sp (c :: l) = Option.none := by
  rw [matchAt, if_neg h]

/-- The substitution loop copies a glue segment without an opening
bracket verbatim and continues after it. -/
theorem subAddrF_skip (wp sp : Char → Bool) :
    ∀ (pre r : List Char) (fuel : Nat), noTag pre → (pre ++ r).length ≤ fuel →
      subAddrF wp sp fuel (pre ++ r) = pre ++ subAddrF wp sp (fuel - pre.length) r
  | [], r, fuel, _, _ => by simp
  | c :: pre, r, fuel, hpre, hfuel => by
    obtain ⟨g, rfl⟩ : ∃ g, fuel = g + 1 := by
      refine ⟨fuel - 1, ?_⟩
      simp only [List.cons_append, List.length_cons] at hfuel
      omega
    rw [List.cons_append, subAddrF, matchAt_cons_ne wp sp (pre ++ r) (hpre c (by simp))]
    show c :: subAddrF wp sp g (pre ++ r)
        = (c :: pre) ++ subAddrF wp sp (g + 1 - (c :: pre).length) r
    rw [subAddrF_skip wp sp pre r g (fun x hx => hpre x (by simp [hx]))
      (by simp only [List.cons_append, List.length_cons] at hfuel; omega)]
    simp [List.cons_append, List.length_cons, Nat.succ_sub_succ]

/-- One well-formed occurrence at the head of the text is replaced by
`<name object>` and scanning resumes right after its closing bracket. -/
theorem subAddrF_block_step (wp sp : Char → Bool) (hf : RegexFacts wp sp) (b : AddrMatch)
    (r : List Char) (hb : GoodBlock wp sp b) :
    subAddrF wp sp (blockText b ++ r).length (blockText b ++ r)
      = cleanBlock b ++ subAddrF wp sp r.length r := by
  have hm := matchAt_block wp sp hf b r hb
  rw [blockText, List.cons_append] at hm ⊢
  rw [show ('<' :: (bInner b ++ r)).length = (bInner b ++ r).length + 1 from by simp]
  rw [subAddrF, hm]
  show '<' :: (b.nm ++ (" object>".data ++ subAddrF wp sp (bInner b ++ r).length r))
      = cleanBlock b ++ subAddrF wp sp r.length r
  rw [subAddrF_fuel wp sp (bInner b ++ r).length r.length r
    (by simp only [List.length_append]; omega) (le_refl _)]
  simp [cleanBlock]

/-- Scanning a repr assembled from bracketless glue and well-formed
occurrences replaces exactly the occurrences and keeps all glue. -/
theorem sanitize_blocks (wp sp : Char → Bool) (hf : RegexFacts wp sp) :
    ∀ (segs : List (List Char × AddrMatch)) (tail : List Char),
      (∀ s ∈ segs, noTag s.1 ∧ GoodBlock wp sp s.2) → noTag tail →
      subAddrF wp sp (reprText segs tail).length (reprText segs tail)
        = cleanText segs tail
  | [], tail, _, htail => by
    rw [reprText, cleanText]
    refine subAddrF_no_match wp sp tail.length tail (le_refl _) (fun i hi => ?_)
    cases hd : tail.drop i with
    | nil => rfl
    | cons c r =>
      refine matchAt_cons_ne wp sp r (htail c ?_)
      refine List.drop_subset i tail ?_
      rw [hd]
      exact List.mem_cons_self c r
  | (pre, b) :: rest, tail, hsegs, htail => by
    have hpre := (hsegs (pre, b) (by simp)).1
    have hb := (hsegs (pre, b) (by simp)).2
    rw [reprText, cleanText]
    rw [subAddrF_skip wp sp pre (blockText b ++ reprText rest tail) _ hpre (le_refl _)]
    rw [show (pre ++ (blockText b ++ reprText rest tail)).length - pre.length
        = (blockText b ++ reprText rest tail).length from by
      simp [List.length_append]]
    rw [subAddrF_block_step wp sp hf b (reprText rest tail) hb]
    rw [sanitize_blocks wp sp hf rest tail (fun s hs => hsegs s (by simp [hs])) htail]

/-- C8 example module: classes `A`, `B`, function `f`, nothing else, no
existing `__all__`. -/
def moduleAB : Module := Module.mk ["A", "B"] [] ["f"] [] [] []

/-- Witness for C8: the example module synthesizes exactly
`["A", "B", "f"]`. -/
theorem c8_all_attribute_synthesis_w :
    (moduleAB.attributes.any (fun a => a.name == "__all__")) = false
    ∧ allPublicNames moduleAB = ["A", "B", "f"]
    ∧ (fixMissingAllAttribute moduleAB
        = { moduleAB with attributes :=
            moduleAB.attributes
              ++ [Attribute.mk "__all__" (some (allPublicNames moduleAB)) none] }
      ∧ List.Sorted strLe (allPublicNames moduleAB)
      ∧ (allPublicNames moduleAB).Nodup
      ∧ ∀ s, s ∈ allPublicNames moduleAB ↔
          s ∈ memberNames moduleAB ∧ startsWithUnderscore s = false) :=
  ⟨rfl, by decide, (c8_all_attribute_synthesis moduleAB).2 rfl⟩

/-- Claim C7: over any word and whitespace tables satisfying the facts
the pattern relies on — Python's Unicode tables do — the sanitization
of FixValueReprRandomAddress rewrites every well-formed occurrence
`<name object capsule-words at 0xHEX>` inside a repr to `<name object>`,
however many occurrences there are and whatever bracketless glue
surrounds them; the two spec examples compute as stated at the ASCII
restriction, on which Python's tables agree for these inputs; and a repr
in which the pattern matches at no position is returned unchanged. -/
theorem c7_address_sanitization :
    (∀ wp sp : Char → Bool, RegexFacts wp sp →
      ∀ (segs : List (List Char × AddrMatch)) (tail : List Char),
        (∀ s ∈ segs, noTag s.1 ∧ GoodBlock wp sp s.2) → noTag tail →
        fixValueRepr wp sp (String.mk (reprText segs tail))
          = String.mk (cleanText segs tail))
    ∧ fixValueRepr isWordChar isSpaceChar "<mypkg.Foo object at 0x55aa1234>"
        = "<mypkg.Foo object>"
    ∧ fixValueRepr isWordChar isSpaceChar "<capsule object NULL at 0x1>"
        = "<capsule object>"
    ∧ (∀ (wp sp : Char → Bool) (l : List Char),
        (∀ i, i ≤ l.length → matchAt wp sp (l.drop i) = Option.none) →
        fixValueRepr wp sp (String.mk l) = String.mk l) := by
  refine ⟨?_, by decide, by decide, ?_⟩
  · intro wp sp hf segs tail hsegs htail
    show String.mk (subAddrF wp sp (String.mk (reprText segs tail)).data.length
        (String.mk (reprText segs tail)).data) = _
    rw [show (String.mk (reprText segs tail)).data = reprText segs tail from rfl,
      sanitize_blocks wp sp hf segs tail hsegs htail]
  · intro wp sp l h
    show String.mk (subAddrF wp sp (String.mk l).data.length (String.mk l).data) = _
    rw [show (String.mk l).data = l from rfl,
      subAddrF_no_match wp sp l.length l (le_refl _) h]

/-- Witness for C7 at a two-occurrence repr: glue, a dotted-name block,
glue, a capsule block with an extra word, glue. -/
theorem c7_address_sanitization_w :
    RegexFacts isWordChar isSpaceChar
    ∧ (∀ s ∈ segsW, noTag s.1 ∧ GoodBlock isWordChar isSpaceChar s.2)
    ∧ noTag " end".data
    ∧ reprText segsW " end".data
        = "val: <mypkg.Foo object at 0x55aa1234> and <capsule object NULL at 0x1> end".data
    ∧ cleanText segsW " end".data
        = "val: <mypkg.Foo object> and <capsule object> end".data
    ∧ fixValueRepr isWordChar isSpaceChar (String.mk (reprText segsW " end".data))
        = String.mk (cleanText segsW " end".data) := by
  have hsegs : ∀ s ∈ segsW, noTag s.1 ∧ GoodBlock isWordChar isSpaceChar s.2 := by
    intro s hs
    simp only [segsW, List.mem_cons, List.not_mem_nil, or_false] at hs
    rcases hs with rfl | rfl
    · exact ⟨by unfold noTag; decide, ⟨by decide, by decide, by decide, by decide, by decide⟩⟩
    · exact ⟨by unfold noTag; decide, ⟨by decide, by decide, by decide, by decide, by decide⟩⟩
  have htail : noTag " end".data := by unfold noTag; decide
  exact ⟨regexFacts_ascii, hsegs, htail, by decide, by decide,
    c7_address_sanitization.1 isWordChar isSpaceChar regexFacts_ascii
      segsW " end".data hsegs htail⟩

end PybindStubgen
